import Mathlib

/-!
Verification of the fasthosting logging pipeline.

Shallow embedding of:
* the target-side ring-buffer writer (`log0_target/src/lib.rs`),
* the host-side LEB128 decoder and byte-stream parser
  (`log0_host/src/leb128.rs`, `log0_host/src/parser.rs`),
* the host reader's transfer arithmetic (`log0_host/src/main.rs`),
* the DWARF type-catalogue classification and the renderer
  (`elf_test/src/lib.rs`).

Machine integers (`u8`, `u32`, `usize` on the 32-bit target) are modelled as
`Nat` with explicit truncation `% 2^32` where overflow matters; byte values are
`Nat` that are `< 256` at every use site.  Arithmetic that Rust leaves
build-dependent (left shift by ≥ 32) is modelled with release-profile
semantics: the shift amount is masked to the bit width and the result is
truncated to 32 bits.
-/

namespace Fasthosting

/-! ### LEB128

`decode_u32` embeds `log0_host/src/leb128.rs`:

```rust
pub fn decode_u32<'a, T: Iterator<Item = &'a u8>>(bytes: T) -> Result<(u32, usize), ()> {
    let mut val = 0;
    for (i, byte) in bytes.enumerate() {
        val |= u32::from(*byte & !CONTINUE) << (7 * i);
        if *byte & CONTINUE == 0 {
            return Ok((val, i + 1));
        }
    }
    Err(())
}
```

The `for` loop with accumulator `val` and index `i` becomes `decodeAux`.
`CONTINUE = 1 << 7`, so `byte & !CONTINUE` is `byte &&& 127` for byte values
below 256 and `byte & CONTINUE` is `byte &&& 128`.
-/

def decodeAux : List Nat → Nat → Nat → Option (Nat × Nat)
  | [], _, _ => none
  | byte :: rest, i, val =>
    let val' := val ||| (((byte &&& 127) <<< ((7 * i) % 32)) % 2 ^ 32)
    if byte &&& 128 = 0 then some (val', i + 1) else decodeAux rest (i + 1) val'

def decode_u32 (bytes : List Nat) : Option (Nat × Nat) :=
  decodeAux bytes 0 0

/-! `lebBytes` embeds the LEB128 encoding loop of `Cursors::leb128_write`
(`log0_target/src/lib.rs`), abstracted from the ring it pushes into: the byte
sequence it emits for a `u32` word.

```rust
fn leb128_write(&self, mut word: u32) {
    const CONTINUE: u8 = 1 << 7;
    loop {
        let mut byte = (word & 0x7f) as u8;
        word >>= 7;
        if word != 0 { byte |= CONTINUE; }
        self.push(byte);
        if word == 0 { return; }
    }
}
```

Since `word : u32`, the loop runs at most ⌈32/7⌉ = 5 iterations; the fuel
argument makes that bound explicit so the recursion is structural.  On the
whole `u32` domain (`word < 2^32 < 128^5`) the fuel is never exhausted. -/

def lebBytes : Nat → Nat → List Nat
  | 0, _ => []
  | fuel + 1, word =>
    let byte := word % 128
    let rest := word / 128
    if rest = 0 then [byte] else (byte + 128) :: lebBytes fuel rest

def leb128_encode (word : Nat) : List Nat := lebBytes 5 word

/-! Bit-twiddling helpers used to evaluate the decoder on encoder output. -/

theorem and_128_eq_zero {b : Nat} (h : b < 128) : b &&& 128 = 0 := by
  apply Nat.eq_of_testBit_eq
  intro i
  simp only [Nat.testBit_and, Nat.zero_testBit]
  rcases eq_or_ne i 7 with rfl | hne
  · have : b.testBit 7 = false := Nat.testBit_lt_two_pow (by norm_num at h ⊢; omega)
    simp [this]
  · have : (128 : Nat).testBit i = false := by
      have : (128 : Nat) = 2 ^ 7 := by norm_num
      rw [this, Nat.testBit_two_pow]
      simpa using fun h => (hne h.symm).elim
    simp [this]

theorem add_128_and_128 {b : Nat} (h : b < 128) : (b + 128) &&& 128 = 128 := by
  apply Nat.eq_of_testBit_eq
  intro i
  simp only [Nat.testBit_and]
  rcases eq_or_ne i 7 with rfl | hne
  · have h7 : (b + 128).testBit 7 = true := by
      rw [Nat.testBit_to_div_mod]
      have h2 : (2 : Nat) ^ 7 = 128 := by norm_num
      have hd : (b + 128) / 2 ^ 7 = 1 := by rw [h2]; omega
      rw [hd]
      decide
    have h128 : (128 : Nat).testBit 7 = true := by decide
    simp [h7, h128]
  · have : (128 : Nat).testBit i = false := by
      have h2 : (128 : Nat) = 2 ^ 7 := by norm_num
      rw [h2, Nat.testBit_two_pow]
      simpa using fun h => (hne h.symm).elim
    simp [this]

theorem and_127_eq_mod (b : Nat) : b &&& 127 = b % 128 := by
  have : (127 : Nat) = 2 ^ 7 - 1 := by norm_num
  rw [this, Nat.and_pow_two_sub_one_eq_mod]

/-- The `u32` value `(byte & 0x7f) << (7*i)` (release semantics) equals the
mathematical product when the product fits in 32 bits. -/
theorem contrib_eq {c i : Nat} (hc : c < 128) (h : c * 2 ^ (7 * i) < 2 ^ 32) :
    (c <<< ((7 * i) % 32)) % 2 ^ 32 = c * 2 ^ (7 * i) := by
  rcases Nat.eq_zero_or_pos c with rfl | hpos
  · simp
  · have hlt : 2 ^ (7 * i) < 2 ^ 32 := lt_of_le_of_lt (Nat.le_mul_of_pos_left _ hpos) h
    have hi : 7 * i < 32 := by
      by_contra hcon
      exact absurd (Nat.pow_le_pow_right (by norm_num) (not_lt.mp hcon)) (not_le.mpr hlt)
    rw [Nat.mod_eq_of_lt hi, Nat.shiftLeft_eq, Nat.mod_eq_of_lt h]

/-- Core decode/encode law, generalised over the loop state: decoding the
encoder's output starting at byte index `i` with accumulator `val` adds
`w * 2^(7i)` to the accumulator and consumes exactly the encoded bytes. -/
theorem decodeAux_lebBytes (fuel : Nat) :
    ∀ w i val rest, 1 ≤ fuel → w < 128 ^ fuel → val < 2 ^ (7 * i) →
      w * 2 ^ (7 * i) < 2 ^ 32 →
      decodeAux (lebBytes fuel w ++ rest) i val =
        some (val + w * 2 ^ (7 * i), i + (lebBytes fuel w).length) := by
  induction fuel with
  | zero => intro _ _ _ _ h; omega
  | succ fuel ih =>
    intro w i val rest _ hw hval hbound
    by_cases hrest : w / 128 = 0
    · -- last byte: `byte = w % 128 = w`, no continuation bit
      have hwlt : w < 128 := by omega
      have hmod : w % 128 = w := Nat.mod_eq_of_lt hwlt
      have hor : val ||| w * 2 ^ (7 * i) = val + w * 2 ^ (7 * i) := by
        rw [Nat.or_comm, mul_comm w (2 ^ (7 * i)), ← Nat.mul_add_lt_is_or hval,
          mul_comm (2 ^ (7 * i)) w]
        omega
      rw [show lebBytes (fuel + 1) w = [w] from by simp [lebBytes, hrest, hmod],
        List.singleton_append]
      simp only [decodeAux]
      rw [and_128_eq_zero hwlt, if_pos rfl, and_127_eq_mod, hmod,
        contrib_eq hwlt hbound, hor]
      rfl
    · -- continuation byte `w % 128 + 128` followed by the encoding of `w / 128`
      have hblt : w % 128 < 128 := Nat.mod_lt _ (by norm_num)
      have hcontrib : w % 128 * 2 ^ (7 * i) < 2 ^ 32 :=
        lt_of_le_of_lt (Nat.mul_le_mul_right _ (Nat.mod_le _ _)) hbound
      have hor : val ||| w % 128 * 2 ^ (7 * i) = val + w % 128 * 2 ^ (7 * i) := by
        rw [Nat.or_comm, mul_comm (w % 128) (2 ^ (7 * i)), ← Nat.mul_add_lt_is_or hval,
          mul_comm (2 ^ (7 * i)) (w % 128)]
        omega
      have hmod2 : (w % 128 + 128) &&& 127 = w % 128 := by
        rw [and_127_eq_mod]; omega
      rw [show lebBytes (fuel + 1) w = (w % 128 + 128) :: lebBytes fuel (w / 128) from by
        simp [lebBytes, hrest], List.cons_append]
      simp only [decodeAux]
      rw [add_128_and_128 hblt, if_neg (by norm_num), hmod2,
        contrib_eq hblt hcontrib, hor]
      have hfuel1 : 1 ≤ fuel := by
        rcases Nat.eq_zero_or_pos fuel with rfl | h
        · exfalso; rw [pow_one] at hw
          exact hrest (Nat.div_eq_of_lt hw)
        · exact h
      have hrec := ih (w / 128) (i + 1) (val + w % 128 * 2 ^ (7 * i)) rest hfuel1
        (Nat.div_lt_of_lt_mul (by rw [← pow_succ']; exact hw))
        (by
          have h2 : 2 ^ (7 * (i + 1)) = 2 ^ (7 * i) * 128 := by ring
          rw [h2]
          have hle : w % 128 ≤ 127 := by omega
          have := Nat.mul_le_mul_right (2 ^ (7 * i)) hle
          nlinarith [hval])
        (by
          have h1 : w / 128 * 2 ^ (7 * (i + 1)) ≤ w * 2 ^ (7 * i) := by
            have h2 : 2 ^ (7 * (i + 1)) = 2 ^ (7 * i) * 128 := by ring
            rw [h2]
            have hle : w / 128 * 128 ≤ w := by
              have := Nat.div_mul_le_self w 128
              omega
            calc w / 128 * (2 ^ (7 * i) * 128)
                = w / 128 * 128 * 2 ^ (7 * i) := by ring
              _ ≤ w * 2 ^ (7 * i) := Nat.mul_le_mul_right _ hle
          exact lt_of_le_of_lt h1 hbound)
      rw [hrec]
      have hsplit : w % 128 + 128 * (w / 128) = w := Nat.mod_add_div w 128
      have hval'' : val + w % 128 * 2 ^ (7 * i) + w / 128 * 2 ^ (7 * (i + 1))
          = val + w * 2 ^ (7 * i) := by
        have h2 : 2 ^ (7 * (i + 1)) = 2 ^ (7 * i) * 128 := by ring
        rw [h2]
        calc val + w % 128 * 2 ^ (7 * i) + w / 128 * (2 ^ (7 * i) * 128)
            = val + (w % 128 + 128 * (w / 128)) * 2 ^ (7 * i) := by ring
          _ = val + w * 2 ^ (7 * i) := by rw [hsplit]
      rw [hval'']
      simp only [List.length_cons]
      congr 2
      omega

/-- Decoding a canonical encoding, with anything appended after it, yields the
encoded value and the encoded length. -/
theorem decode_leb128_encode (n : Nat) (h : n < 2 ^ 32) (rest : List Nat) :
    decode_u32 (leb128_encode n ++ rest) =
      some (n, (leb128_encode n).length) := by
  have := decodeAux_lebBytes 5 n 0 0 rest (by norm_num)
    (lt_trans h (by norm_num)) (by norm_num) (by simpa using h)
  simpa [decode_u32, leb128_encode] using this

/-- A successful decode consumes at least one and at most all input bytes. -/
theorem decodeAux_le {xs : List Nat} :
    ∀ {i val v n}, decodeAux xs i val = some (v, n) → i < n ∧ n ≤ i + xs.length := by
  induction xs with
  | nil => intro i val v n h; simp [decodeAux] at h
  | cons b rest ih =>
    intro i val v n h
    simp only [decodeAux] at h
    by_cases hb : b &&& 128 = 0
    · rw [if_pos hb] at h
      simp only [Option.some.injEq, Prod.mk.injEq] at h
      obtain ⟨-, rfl⟩ := h
      simp only [List.length_cons]
      omega
    · rw [if_neg hb] at h
      have := ih h
      simp only [List.length_cons]
      omega

/-- A successful decode is unaffected by bytes arriving after it. -/
theorem decodeAux_append {xs : List Nat} :
    ∀ {i val r} (ys : List Nat), decodeAux xs i val = some r →
      decodeAux (xs ++ ys) i val = some r := by
  induction xs with
  | nil => intro i val r ys h; simp [decodeAux] at h
  | cons b rest ih =>
    intro i val r ys h
    simp only [decodeAux] at h ⊢
    by_cases hb : b &&& 128 = 0
    · rw [if_pos hb] at h ⊢; exact h
    · rw [if_neg hb] at h ⊢; exact ih ys h

theorem decode_u32_append {xs : List Nat} {r : Nat × Nat} (ys : List Nat)
    (h : decode_u32 xs = some r) : decode_u32 (xs ++ ys) = some r :=
  decodeAux_append ys h

/-- `decodeAux` fails exactly when every input byte carries the continuation
bit, i.e. when the input ends in the middle of a number. -/
theorem decodeAux_none_iff (xs : List Nat) :
    ∀ i val, (decodeAux xs i val = none ↔ ∀ b ∈ xs, b &&& 128 ≠ 0) := by
  induction xs with
  | nil => intro i val; simp [decodeAux]
  | cons b rest ih =>
    intro i val
    simp only [decodeAux, List.mem_cons]
    by_cases hb : b &&& 128 = 0
    · simp only [if_pos hb, reduceCtorEq, false_iff]
      intro hcon
      exact hcon b (Or.inl rfl) hb
    · simp only [if_neg hb]
      rw [ih]
      constructor
      · intro h x hx
        rcases hx with rfl | hx
        · exact hb
        · exact h x hx
      · intro h x hx
        exact h x (Or.inr hx)

theorem lebBytes_length_le (fuel : Nat) : ∀ w, (lebBytes fuel w).length ≤ fuel := by
  induction fuel with
  | zero => intro w; simp [lebBytes]
  | succ fuel ih =>
    intro w
    simp only [lebBytes]
    split
    · simp
    · simpa using ih (w / 128)

theorem lebBytes_length_pos (fuel w : Nat) (h : 1 ≤ fuel) :
    1 ≤ (lebBytes fuel w).length := by
  cases fuel with
  | zero => omega
  | succ fuel =>
    simp only [lebBytes]
    split <;> simp

/-- C2.  For every `n < 2^32`, decoding the writer's LEB128 encoding of `n`
returns `(n, number_of_bytes_encoded)`, and the four literal examples hold:
`encode 0 = [0x00]`, `encode 127 = [0x7F]`, `encode 128 = [0x80, 0x01]`,
`encode 0xFFFF_FFFF = [0xFF, 0xFF, 0xFF, 0xFF, 0x0F]`. -/
theorem leb128_law (n : Nat) (h : n < 2 ^ 32) :
    decode_u32 (leb128_encode n) = some (n, (leb128_encode n).length) ∧
    leb128_encode 0 = [0x00] ∧
    leb128_encode 127 = [0x7F] ∧
    leb128_encode 128 = [0x80, 0x01] ∧
    leb128_encode 0xFFFFFFFF = [0xFF, 0xFF, 0xFF, 0xFF, 0x0F] := by
  refine ⟨?_, by decide, by decide, by decide, by decide⟩
  have := decode_leb128_encode n h []
  simpa using this

/-- Witness for C2 at the concrete input `n = 0xCAFE`. -/
theorem leb128_law_witness :
    51966 < 2 ^ 32 ∧
    (decode_u32 (leb128_encode 51966) = some (51966, (leb128_encode 51966).length) ∧
     leb128_encode 0 = [0x00] ∧
     leb128_encode 127 = [0x7F] ∧
     leb128_encode 128 = [0x80, 0x01] ∧
     leb128_encode 0xFFFFFFFF = [0xFF, 0xFF, 0xFF, 0xFF, 0x0F]) :=
  ⟨by norm_num, leb128_law 51966 (by norm_num)⟩

/-- C3 counterexample.  A LEB128 number whose sixth byte still has the
continuation bit set is *not* rejected by `decode_u32`: fed
`[0x80, 0x80, 0x80, 0x80, 0x80, 0x80, 0x00]` (six continuation bytes, then a
terminator) the decoder consumes all seven bytes and returns the value `0`
instead of raising an error. -/
theorem decode_u32_consumes_sixth_continuation :
    decode_u32 [0x80, 0x80, 0x80, 0x80, 0x80, 0x80, 0x00] = some (0, 7) := by
  decide


/-! ### Target-side ring buffer (`log0_target/src/lib.rs`)

```rust
const LOG0_CAPACITY: usize = 1024;

pub struct Cursors { target: Cell<usize>, host: Cell<usize>, buf: *mut u8 }

fn push(&self, byte: u8) {
    let target = self.target.get();
    unsafe { self.buf.add(target).write(byte) }
    self.target.set(target.wrapping_add(1) % LOG0_CAPACITY);
}

fn len(&self) -> usize {
    self.target.get().wrapping_sub(self.host.get()).wrapping_add(LOG0_CAPACITY)
        % LOG0_CAPACITY
}

fn free(&self) -> usize { LOG0_CAPACITY - 1 - self.len() }

pub fn write_frame(&self, sym: *const u8, type_str: *const u8, data: &[u8]) {
    let data_len = data.len();
    if self.free() >= data_len + 15 {
        self.leb128_write(data_len as u32);
        self.leb128_write(sym as u32);
        self.leb128_write(type_str as u32);
        for b in data { self.push(*b); }
    }
}
```

The buffer is a `List Nat` of length `LOG0_CAPACITY`; `usize` on the 32-bit
target wraps at `2^32`, which the `len` model spells out.  The `trace` field is
instrumentation, not part of the Rust struct: it records, in program order,
every byte store into `LOG0_BUFFER` (`Ev.wr pos val`) and every store to the
producer cursor (`Ev.setT v`), so that the publication discipline of `T` can be
stated. -/

def LOG0_CAPACITY : Nat := 1024

inductive Ev where
  | wr (pos : Nat) (val : Nat)
  | setT (v : Nat)
deriving DecidableEq

structure Cursors where
  target : Nat
  host : Nat
  buf : List Nat
  trace : List Ev
deriving DecidableEq

def Cursors.push (c : Cursors) (byte : Nat) : Cursors :=
  { c with
    buf := c.buf.set c.target byte
    target := (c.target + 1) % LOG0_CAPACITY
    trace := c.trace ++ [Ev.wr c.target byte, Ev.setT ((c.target + 1) % LOG0_CAPACITY)] }

/-- The `for b in data { self.push(*b) }` loop. -/
def Cursors.pushBytes (c : Cursors) (data : List Nat) : Cursors :=
  data.foldl Cursors.push c

/-- The `Cursors::leb128_write` loop, pushing the bytes of `lebBytes` one by
one (same fuel discipline as `lebBytes`: the argument is a `u32`). -/
def lebWriteAux : Nat → Cursors → Nat → Cursors
  | 0, c, _ => c
  | fuel + 1, c, word =>
    let byte := word % 128
    let rest := word / 128
    if rest = 0 then c.push byte else lebWriteAux fuel (c.push (byte + 128)) rest

def Cursors.leb128_write (c : Cursors) (word : Nat) : Cursors :=
  lebWriteAux 5 c word

/-- `(T − H + C) mod C` in wrapping 32-bit `usize` arithmetic
(`wrapping_sub` then `wrapping_add` then `%`). -/
def Cursors.len (c : Cursors) : Nat :=
  ((c.target + (2 ^ 32 - c.host)) % 2 ^ 32 + LOG0_CAPACITY) % 2 ^ 32 % LOG0_CAPACITY

def Cursors.free (c : Cursors) : Nat :=
  LOG0_CAPACITY - 1 - c.len

def Cursors.write_frame (c : Cursors) (sym type_str : Nat) (data : List Nat) : Cursors :=
  if c.free ≥ data.length + 15 then
    ((((c.leb128_write (data.length % 2 ^ 32)).leb128_write
        (sym % 2 ^ 32)).leb128_write (type_str % 2 ^ 32)).pushBytes data)
  else c

/-- The byte sequence a committed frame deposits in the ring, in ring order:
three LEB128 headers followed by the raw payload (§ the wire format). -/
def frameBytes (sym type_str : Nat) (data : List Nat) : List Nat :=
  leb128_encode (data.length % 2 ^ 32) ++ leb128_encode (sym % 2 ^ 32) ++
    leb128_encode (type_str % 2 ^ 32) ++ data

/-! Ring lemmas. -/

theorem pushBytes_append (c : Cursors) (a b : List Nat) :
    c.pushBytes (a ++ b) = (c.pushBytes a).pushBytes b := by
  simp [Cursors.pushBytes, List.foldl_append]

theorem lebWriteAux_eq_pushBytes (fuel : Nat) :
    ∀ c w, lebWriteAux fuel c w = c.pushBytes (lebBytes fuel w) := by
  induction fuel with
  | zero => intro c w; rfl
  | succ fuel ih =>
    intro c w
    simp only [lebWriteAux, lebBytes]
    split
    · rfl
    · rw [ih]
      rfl

theorem leb128_write_eq (c : Cursors) (w : Nat) :
    c.leb128_write w = c.pushBytes (leb128_encode w) :=
  lebWriteAux_eq_pushBytes 5 c w

/-- A committed `write_frame` is `pushBytes` of the frame's wire bytes. -/
theorem write_frame_commit_eq (c : Cursors) (sym typ : Nat) (data : List Nat)
    (h : c.free ≥ data.length + 15) :
    c.write_frame sym typ data = c.pushBytes (frameBytes sym typ data) := by
  rw [Cursors.write_frame, if_pos h, leb128_write_eq, leb128_write_eq, leb128_write_eq,
    ← pushBytes_append, ← pushBytes_append, ← pushBytes_append]
  simp [frameBytes, List.append_assoc]

theorem write_frame_drop_eq (c : Cursors) (sym typ : Nat) (data : List Nat)
    (h : ¬ c.free ≥ data.length + 15) :
    c.write_frame sym typ data = c := by
  rw [Cursors.write_frame, if_neg h]

theorem pushBytes_host (c : Cursors) (bs : List Nat) :
    (c.pushBytes bs).host = c.host := by
  induction bs generalizing c with
  | nil => rfl
  | cons b rest ih => simpa [Cursors.pushBytes, Cursors.push] using ih (c.push b)

theorem pushBytes_target (c : Cursors) (bs : List Nat) (ht : c.target < LOG0_CAPACITY) :
    (c.pushBytes bs).target = (c.target + bs.length) % LOG0_CAPACITY := by
  induction bs generalizing c with
  | nil => simpa [Cursors.pushBytes, LOG0_CAPACITY] using (Nat.mod_eq_of_lt ht).symm
  | cons b rest ih =>
    have h1 : (c.push b).target = (c.target + 1) % LOG0_CAPACITY := rfl
    have h2 : (c.push b).target < LOG0_CAPACITY :=
      Nat.mod_lt _ (by norm_num [LOG0_CAPACITY])
    calc (c.pushBytes (b :: rest)).target
        = ((c.push b).target + rest.length) % LOG0_CAPACITY := ih (c.push b) h2
      _ = ((c.target + 1) % LOG0_CAPACITY + rest.length) % LOG0_CAPACITY := by rw [h1]
      _ = (c.target + (b :: rest).length) % LOG0_CAPACITY := by
          rw [Nat.mod_add_mod]
          simp only [List.length_cons]
          ring_nf

theorem pushBytes_buf_outside (bs : List Nat) :
    ∀ (c : Cursors), c.target < LOG0_CAPACITY →
      ∀ i : Nat, (∀ j < bs.length, i ≠ (c.target + j) % LOG0_CAPACITY) →
        (c.pushBytes bs).buf[i]? = c.buf[i]? := by
  induction bs with
  | nil => intro c _ i _; rfl
  | cons b rest ih =>
    intro c ht i hout
    have hne0 : i ≠ c.target := by
      have := hout 0 (by simp)
      simpa [Nat.mod_eq_of_lt ht] using this
    have h2 : (c.push b).target < LOG0_CAPACITY := Nat.mod_lt _ (by norm_num [LOG0_CAPACITY])
    have step : (c.pushBytes (b :: rest)).buf[i]? = (c.push b).buf[i]? := by
      apply ih (c.push b) h2 i
      intro j hj
      have := hout (j + 1) (by simpa using Nat.succ_lt_succ hj)
      show i ≠ ((c.target + 1) % LOG0_CAPACITY + j) % LOG0_CAPACITY
      rw [Nat.mod_add_mod]
      simpa [Nat.add_assoc, Nat.add_comm 1 j] using this
    rw [step]
    show (c.buf.set c.target b)[i]? = c.buf[i]?
    exact List.getElem?_set_ne (Ne.symm hne0)

theorem frameBytes_length_le (sym typ : Nat) (data : List Nat) :
    (frameBytes sym typ data).length ≤ data.length + 15 := by
  simp only [frameBytes, List.length_append]
  have h1 := lebBytes_length_le 5 (data.length % 2 ^ 32)
  have h2 := lebBytes_length_le 5 (sym % 2 ^ 32)
  have h3 := lebBytes_length_le 5 (typ % 2 ^ 32)
  simp only [leb128_encode] at *
  omega

theorem frameBytes_length_pos (sym typ : Nat) (data : List Nat) :
    3 ≤ (frameBytes sym typ data).length := by
  simp only [frameBytes, List.length_append]
  have h1 := lebBytes_length_pos 5 (data.length % 2 ^ 32) (by norm_num)
  have h2 := lebBytes_length_pos 5 (sym % 2 ^ 32) (by norm_num)
  have h3 := lebBytes_length_pos 5 (typ % 2 ^ 32) (by norm_num)
  simp only [leb128_encode] at *
  omega

/-- With in-range cursors, the wrapping `usize` formula collapses to plain
modular arithmetic. -/
theorem len_formula (c : Cursors) (ht : c.target < LOG0_CAPACITY)
    (hh : c.host < LOG0_CAPACITY) :
    c.len = (c.target + LOG0_CAPACITY - c.host) % LOG0_CAPACITY := by
  simp only [Cursors.len, LOG0_CAPACITY] at *
  omega

theorem len_lt (c : Cursors) : c.len < LOG0_CAPACITY := by
  simp only [Cursors.len, LOG0_CAPACITY]
  omega

/-- Shared commit-case bookkeeping: after a committed frame the producer
cursor has advanced by the encoded length, the consumer cursor is untouched,
and `bytes_available` has grown by exactly the encoded length. -/
theorem write_frame_commit_state (c : Cursors) (sym typ : Nat) (data : List Nat)
    (ht : c.target < LOG0_CAPACITY) (hh : c.host < LOG0_CAPACITY)
    (hfree : data.length + 15 ≤ c.free) :
    (c.write_frame sym typ data).target =
      (c.target + (frameBytes sym typ data).length) % LOG0_CAPACITY ∧
    (c.write_frame sym typ data).host = c.host ∧
    (c.write_frame sym typ data).len = c.len + (frameBytes sym typ data).length ∧
    (c.write_frame sym typ data).len ≤ LOG0_CAPACITY - 1 := by
  have heq := write_frame_commit_eq c sym typ data hfree
  set e := (frameBytes sym typ data).length with he
  have htgt : (c.write_frame sym typ data).target = (c.target + e) % LOG0_CAPACITY := by
    rw [heq]; exact pushBytes_target c _ ht
  have hhost : (c.write_frame sym typ data).host = c.host := by
    rw [heq]; exact pushBytes_host c _
  have hlen0 : c.len = (c.target + LOG0_CAPACITY - c.host) % LOG0_CAPACITY :=
    len_formula c ht hh
  have hee : e ≤ data.length + 15 := frameBytes_length_le sym typ data
  have hfit : c.len + e ≤ LOG0_CAPACITY - 1 := by
    have := len_lt c
    simp only [Cursors.free, LOG0_CAPACITY] at hfree this ⊢
    omega
  have hlen' : (c.write_frame sym typ data).len = c.len + e := by
    have htlt : (c.write_frame sym typ data).target < LOG0_CAPACITY := by
      rw [htgt]; exact Nat.mod_lt _ (by norm_num [LOG0_CAPACITY])
    have hhlt : (c.write_frame sym typ data).host < LOG0_CAPACITY := by
      rw [hhost]; exact hh
    have h1 := len_formula (c.write_frame sym typ data) htlt hhlt
    rw [htgt, hhost] at h1
    rw [h1, hlen0]
    simp only [LOG0_CAPACITY] at *
    omega
  exact ⟨htgt, hhost, hlen', hlen' ▸ hfit⟩

/-- C4.  `write_frame` commits or drops atomically: on commit,
`bytes_available` grows by exactly the frame's encoded length and the free
count stays non-negative (`len ≤ C − 1`); when the admission check fails the
state — ring bytes and both cursors — is returned unchanged, with no error
reported (the function is total and silent). -/
theorem write_frame_atomic (c : Cursors) (sym typ : Nat) (data : List Nat)
    (ht : c.target < LOG0_CAPACITY) (hh : c.host < LOG0_CAPACITY) :
    (data.length + 15 ≤ c.free →
      (c.write_frame sym typ data).len = c.len + (frameBytes sym typ data).length ∧
      (c.write_frame sym typ data).len ≤ LOG0_CAPACITY - 1) ∧
    (c.free < data.length + 15 → c.write_frame sym typ data = c) := by
  constructor
  · intro hfree
    obtain ⟨-, -, h3, h4⟩ := write_frame_commit_state c sym typ data ht hh hfree
    exact ⟨h3, h4⟩
  · intro hdrop
    exact write_frame_drop_eq c sym typ data (by omega)

/-- Witness for C4 at a concrete ring state and frame. -/
theorem write_frame_atomic_witness :
    (Cursors.target ⟨0, 0, List.replicate 1024 0, []⟩ < LOG0_CAPACITY ∧
     Cursors.host ⟨0, 0, List.replicate 1024 0, []⟩ < LOG0_CAPACITY) ∧
    (([1, 2, 3] : List Nat).length + 15 ≤ Cursors.free ⟨0, 0, List.replicate 1024 0, []⟩ →
      (Cursors.write_frame ⟨0, 0, List.replicate 1024 0, []⟩ 202 254 [1, 2, 3]).len =
        Cursors.len ⟨0, 0, List.replicate 1024 0, []⟩ + (frameBytes 202 254 [1, 2, 3]).length ∧
      (Cursors.write_frame ⟨0, 0, List.replicate 1024 0, []⟩ 202 254 [1, 2, 3]).len ≤
        LOG0_CAPACITY - 1) ∧
    (Cursors.free ⟨0, 0, List.replicate 1024 0, []⟩ < ([1, 2, 3] : List Nat).length + 15 →
      Cursors.write_frame ⟨0, 0, List.replicate 1024 0, []⟩ 202 254 [1, 2, 3] =
        ⟨0, 0, List.replicate 1024 0, []⟩) :=
  ⟨⟨by decide, by decide⟩,
   write_frame_atomic ⟨0, 0, List.replicate 1024 0, []⟩ 202 254 [1, 2, 3]
     (by decide) (by decide)⟩

set_option maxRecDepth 10000 in
/-- C5 counterexample.  With `T = 1000, H = 0` the ring has
`free = C − 1 − bytes_available = 23` bytes; the frame
`(sym = 0, typ = 0, payload = 20 zero bytes)` encodes to exactly 23 bytes
(three 1-byte headers + 20), yet `write_frame` *drops* it — the state is
returned unchanged — because admission tests `free ≥ payload_len + 15 = 35`,
not the actual encoded length. -/
theorem exact_fit_frame_dropped :
    (frameBytes 0 0 (List.replicate 20 0)).length =
      LOG0_CAPACITY - 1 - Cursors.len ⟨1000, 0, List.replicate 1024 0, []⟩ ∧
    Cursors.write_frame ⟨1000, 0, List.replicate 1024 0, []⟩ 0 0 (List.replicate 20 0) =
      ⟨1000, 0, List.replicate 1024 0, []⟩ := by
  constructor
  · decide
  · decide

/-- C5 amended.  The commit/reject boundary sits at `payload_len + 15` (the
worst-case header bound), not at the frame's actual encoded length: a frame
whose payload length satisfies `payload_len + 15 = C − 1 − bytes_available`
commits (the producer cursor advances by the encoded length and
`bytes_available` grows by it), and any frame with one more payload byte is
rejected with the state unchanged. -/
theorem write_frame_boundary (c : Cursors) (sym typ : Nat) (data data' : List Nat)
    (ht : c.target < LOG0_CAPACITY) (hh : c.host < LOG0_CAPACITY)
    (hexact : data.length + 15 = LOG0_CAPACITY - 1 - c.len)
    (hlonger : data'.length = data.length + 1) :
    ((c.write_frame sym typ data).len = c.len + (frameBytes sym typ data).length ∧
     (c.write_frame sym typ data).target =
       (c.target + (frameBytes sym typ data).length) % LOG0_CAPACITY) ∧
    c.write_frame sym typ data' = c := by
  have hlt := len_lt c
  have hfree : data.length + 15 ≤ c.free := by
    simp only [Cursors.free, LOG0_CAPACITY] at *
    omega
  obtain ⟨h1, -, h3, -⟩ := write_frame_commit_state c sym typ data ht hh hfree
  refine ⟨⟨h3, h1⟩, ?_⟩
  apply write_frame_drop_eq
  simp only [Cursors.free, LOG0_CAPACITY] at *
  omega

set_option maxRecDepth 10000 in
/-- Witness for C5 (amended) at the empty ring: a 1008-byte payload exactly
fills `free − 15 = 1008`; a 1009-byte payload is rejected. -/
theorem write_frame_boundary_witness :
    ((Cursors.target ⟨0, 0, List.replicate 1024 0, []⟩ < LOG0_CAPACITY ∧
      Cursors.host ⟨0, 0, List.replicate 1024 0, []⟩ < LOG0_CAPACITY) ∧
     (List.replicate 1008 (0 : Nat)).length + 15 =
       LOG0_CAPACITY - 1 - Cursors.len ⟨0, 0, List.replicate 1024 0, []⟩ ∧
     (List.replicate 1009 (0 : Nat)).length = (List.replicate 1008 (0 : Nat)).length + 1) ∧
    (((Cursors.write_frame ⟨0, 0, List.replicate 1024 0, []⟩ 7 9
          (List.replicate 1008 0)).len =
        Cursors.len ⟨0, 0, List.replicate 1024 0, []⟩ +
          (frameBytes 7 9 (List.replicate 1008 0)).length ∧
      (Cursors.write_frame ⟨0, 0, List.replicate 1024 0, []⟩ 7 9
          (List.replicate 1008 0)).target =
        (Cursors.target ⟨0, 0, List.replicate 1024 0, []⟩ +
          (frameBytes 7 9 (List.replicate 1008 0)).length) % LOG0_CAPACITY) ∧
     Cursors.write_frame ⟨0, 0, List.replicate 1024 0, []⟩ 7 9 (List.replicate 1009 0) =
       ⟨0, 0, List.replicate 1024 0, []⟩) :=
  ⟨⟨⟨by decide, by decide⟩, by decide, by decide⟩,
   write_frame_boundary ⟨0, 0, List.replicate 1024 0, []⟩ 7 9
     (List.replicate 1008 0) (List.replicate 1009 0)
     (by decide) (by decide) (by decide) (by decide)⟩

/-- C10.  Every `write_frame` call — committing or dropping — keeps the
producer cursor inside `[0, C)`, never touches the consumer cursor, and leaves
every buffer byte outside the committed region `[T, T + encoded_len) mod C`
unchanged. -/
theorem write_frame_containment (c : Cursors) (sym typ : Nat) (data : List Nat)
    (ht : c.target < LOG0_CAPACITY) :
    (c.write_frame sym typ data).target < LOG0_CAPACITY ∧
    (c.write_frame sym typ data).host = c.host ∧
    ∀ i : Nat,
      (∀ j < (frameBytes sym typ data).length, i ≠ (c.target + j) % LOG0_CAPACITY) →
      (c.write_frame sym typ data).buf[i]? = c.buf[i]? := by
  by_cases hfree : data.length + 15 ≤ c.free
  · have heq := write_frame_commit_eq c sym typ data hfree
    refine ⟨?_, ?_, ?_⟩
    · rw [heq, pushBytes_target c _ ht]
      exact Nat.mod_lt _ (by norm_num [LOG0_CAPACITY])
    · rw [heq]; exact pushBytes_host c _
    · intro i hi
      rw [heq]
      exact pushBytes_buf_outside _ c ht i hi
  · rw [write_frame_drop_eq c sym typ data hfree]
    exact ⟨ht, rfl, fun i _ => rfl⟩

/-- Witness for C10 at a concrete ring state and frame. -/
theorem write_frame_containment_witness :
    Cursors.target ⟨5, 5, List.replicate 1024 0, []⟩ < LOG0_CAPACITY ∧
    ((Cursors.write_frame ⟨5, 5, List.replicate 1024 0, []⟩ 1 2 [9]).target < LOG0_CAPACITY ∧
     (Cursors.write_frame ⟨5, 5, List.replicate 1024 0, []⟩ 1 2 [9]).host =
       Cursors.host ⟨5, 5, List.replicate 1024 0, []⟩ ∧
     ∀ i : Nat,
       (∀ j < (frameBytes 1 2 [9]).length,
         i ≠ (Cursors.target ⟨5, 5, List.replicate 1024 0, []⟩ + j) % LOG0_CAPACITY) →
       (Cursors.write_frame ⟨5, 5, List.replicate 1024 0, []⟩ 1 2 [9]).buf[i]? =
         (Cursors.buf ⟨5, 5, List.replicate 1024 0, []⟩)[i]?) :=
  ⟨by decide, write_frame_containment ⟨5, 5, List.replicate 1024 0, []⟩ 1 2 [9] (by decide)⟩

/-! ### Publication of the producer cursor (trace view) -/

def isSetT : Ev → Bool
  | Ev.setT _ => true
  | Ev.wr _ _ => false

/-- The value of the producer cursor after a prefix of store events,
starting from `t0`. -/
def lastT (t0 : Nat) (tr : List Ev) : Nat :=
  tr.foldl (fun acc e => match e with | Ev.setT v => v | Ev.wr _ _ => acc) t0

/-- Whether the event prefix contains a byte store at ring position `p`. -/
def wroteAt (tr : List Ev) (p : Nat) : Bool :=
  tr.any (fun e => match e with | Ev.wr q _ => q == p | Ev.setT _ => false)

/-- Ring-distance from cursor `a` forward to cursor `b`. -/
def wdist (a b : Nat) : Nat := (b + LOG0_CAPACITY - a) % LOG0_CAPACITY

/-- Closed form of the event trace of pushing `bs` starting at cursor `t`:
each byte store is immediately followed by a store of the cursor just past
that byte. -/
def pushTrace : Nat → List Nat → List Ev
  | _, [] => []
  | t, b :: rest =>
    Ev.wr t b :: Ev.setT ((t + 1) % LOG0_CAPACITY) ::
      pushTrace ((t + 1) % LOG0_CAPACITY) rest

theorem pushBytes_trace (bs : List Nat) :
    ∀ c : Cursors, (c.pushBytes bs).trace = c.trace ++ pushTrace c.target bs := by
  induction bs with
  | nil => intro c; simp [Cursors.pushBytes, pushTrace]
  | cons b rest ih =>
    intro c
    have h1 : (c.pushBytes (b :: rest)) = (c.push b).pushBytes rest := rfl
    rw [h1, ih (c.push b)]
    simp [Cursors.push, pushTrace, List.append_assoc]

theorem pushTrace_countP (bs : List Nat) :
    ∀ t, (pushTrace t bs).countP (fun e => isSetT e) = bs.length := by
  induction bs with
  | nil => intro t; simp [pushTrace]
  | cons b rest ih =>
    intro t
    rw [pushTrace, List.countP_cons, List.countP_cons, ih]
    simp [isSetT]

/-- Every prefix of a push trace has published a cursor `(t0 + m) % C` for
some `m` bounded by the number of bytes, with every position strictly before
it already written in that same prefix. -/
theorem pushTrace_prefix (bs : List Nat) :
    ∀ t0 k, t0 < LOG0_CAPACITY →
      ∃ m, m ≤ bs.length ∧
        lastT t0 ((pushTrace t0 bs).take k) = (t0 + m) % LOG0_CAPACITY ∧
        ∀ j < m, wroteAt ((pushTrace t0 bs).take k) ((t0 + j) % LOG0_CAPACITY) = true := by
  induction bs with
  | nil =>
    intro t0 k ht
    exact ⟨0, le_refl _, by simp [pushTrace, lastT, Nat.mod_eq_of_lt ht], by omega⟩
  | cons b rest ih =>
    intro t0 k ht
    match k with
    | 0 =>
      exact ⟨0, by omega, by simp [lastT, Nat.mod_eq_of_lt ht], by omega⟩
    | 1 =>
      refine ⟨0, by omega, ?_, by omega⟩
      simp [pushTrace, lastT, Nat.mod_eq_of_lt ht]
    | (k + 2) =>
      have ht1 : (t0 + 1) % LOG0_CAPACITY < LOG0_CAPACITY :=
        Nat.mod_lt _ (by norm_num [LOG0_CAPACITY])
      obtain ⟨m', hle, hlast, hwrote⟩ := ih ((t0 + 1) % LOG0_CAPACITY) k ht1
      refine ⟨m' + 1, by simp; omega, ?_, ?_⟩
      · show lastT t0 (List.take (k + 2)
          (Ev.wr t0 b :: Ev.setT ((t0 + 1) % LOG0_CAPACITY) ::
            pushTrace ((t0 + 1) % LOG0_CAPACITY) rest)) = (t0 + (m' + 1)) % LOG0_CAPACITY
        simp only [List.take_succ_cons, lastT, List.foldl_cons]
        rw [show ∀ l, List.foldl (fun acc e =>
            match e with | Ev.setT v => v | Ev.wr _ _ => acc) ((t0 + 1) % LOG0_CAPACITY) l =
            lastT ((t0 + 1) % LOG0_CAPACITY) l from fun l => rfl, hlast, Nat.mod_add_mod]
        congr 1
        omega
      · intro j hj
        match j with
        | 0 =>
          show wroteAt (List.take (k + 2) (Ev.wr t0 b :: _)) (t0 % LOG0_CAPACITY) = true
          rw [Nat.mod_eq_of_lt ht]
          simp [List.take_succ_cons, wroteAt]
        | (j + 1) =>
          have hw := hwrote j (by omega)
          have heq : ((t0 + 1) % LOG0_CAPACITY + j) % LOG0_CAPACITY
              = (t0 + (j + 1)) % LOG0_CAPACITY := by
            rw [Nat.mod_add_mod]; congr 1; omega
          rw [heq] at hw
          show wroteAt (List.take (k + 2) (Ev.wr t0 b :: Ev.setT _ :: _))
            ((t0 + (j + 1)) % LOG0_CAPACITY) = true
          simp only [List.take_succ_cons, wroteAt, List.any_cons]
          simp only [wroteAt] at hw
          rw [hw]
          simp

/-- C6 counterexample.  The producer cursor `T` is *not* stored exactly once
per committed frame: committing the empty-payload frame `(sym=0, typ=0, [])`
(three header bytes) stores `T` three times — once after every pushed byte. -/
theorem write_frame_sets_T_thrice :
    ((Cursors.write_frame ⟨0, 0, List.replicate 1024 0, []⟩ 0 0 []).trace.countP
      (fun e => isSetT e)) = 3 ∧ ¬ (3 : Nat) = 1 := by
  constructor
  · decide
  · decide

/-- C6 amended.  During a committed `write_frame`, `T` is stored once per
*byte* (encoded-length many times), each store immediately after the byte it
covers: the trace is exactly `pushTrace T₀ (frameBytes …)`, the number of `T`
stores equals the frame's encoded length, and after any prefix of the trace
every ring position in `[T₀, current T)` has already been written — `T` never
names bytes that have not yet been stored. -/
theorem write_frame_publish_discipline (c : Cursors) (sym typ : Nat) (data : List Nat)
    (ht : c.target < LOG0_CAPACITY) (htr : c.trace = [])
    (hfree : data.length + 15 ≤ c.free) :
    (c.write_frame sym typ data).trace = pushTrace c.target (frameBytes sym typ data) ∧
    ((c.write_frame sym typ data).trace.countP (fun e => isSetT e)) =
      (frameBytes sym typ data).length ∧
    ∀ k j : Nat,
      j < wdist c.target (lastT c.target ((c.write_frame sym typ data).trace.take k)) →
      wroteAt ((c.write_frame sym typ data).trace.take k)
        ((c.target + j) % LOG0_CAPACITY) = true := by
  have heq := write_frame_commit_eq c sym typ data hfree
  have htrace : (c.write_frame sym typ data).trace =
      pushTrace c.target (frameBytes sym typ data) := by
    rw [heq, pushBytes_trace, htr, List.nil_append]
  refine ⟨htrace, ?_, ?_⟩
  · rw [htrace, pushTrace_countP]
  · intro k j hj
    rw [htrace] at hj ⊢
    obtain ⟨m, hle, hlast, hwrote⟩ := pushTrace_prefix (frameBytes sym typ data) c.target k ht
    rw [hlast] at hj
    apply hwrote
    have : wdist c.target ((c.target + m) % LOG0_CAPACITY) = m % LOG0_CAPACITY := by
      simp only [wdist, LOG0_CAPACITY] at *
      omega
    rw [this] at hj
    exact lt_of_lt_of_le hj (Nat.mod_le _ _)

/-- Witness for C6 (amended) at a concrete committed frame. -/
theorem write_frame_publish_discipline_witness :
    (Cursors.target ⟨0, 0, List.replicate 1024 0, []⟩ < LOG0_CAPACITY ∧
     Cursors.trace ⟨0, 0, List.replicate 1024 0, []⟩ = [] ∧
     ([4, 2] : List Nat).length + 15 ≤ Cursors.free ⟨0, 0, List.replicate 1024 0, []⟩) ∧
    ((Cursors.write_frame ⟨0, 0, List.replicate 1024 0, []⟩ 3 5 [4, 2]).trace =
       pushTrace (Cursors.target ⟨0, 0, List.replicate 1024 0, []⟩) (frameBytes 3 5 [4, 2]) ∧
     ((Cursors.write_frame ⟨0, 0, List.replicate 1024 0, []⟩ 3 5 [4, 2]).trace.countP
       (fun e => isSetT e)) = (frameBytes 3 5 [4, 2]).length ∧
     ∀ k j : Nat,
       j < wdist (Cursors.target ⟨0, 0, List.replicate 1024 0, []⟩)
         (lastT (Cursors.target ⟨0, 0, List.replicate 1024 0, []⟩)
           ((Cursors.write_frame ⟨0, 0, List.replicate 1024 0, []⟩ 3 5 [4, 2]).trace.take k)) →
       wroteAt ((Cursors.write_frame ⟨0, 0, List.replicate 1024 0, []⟩ 3 5 [4, 2]).trace.take k)
         ((Cursors.target ⟨0, 0, List.replicate 1024 0, []⟩ + j) % LOG0_CAPACITY) = true) :=
  ⟨⟨by decide, by decide, by decide⟩,
   write_frame_publish_discipline ⟨0, 0, List.replicate 1024 0, []⟩ 3 5 [4, 2]
     (by decide) (by decide) (by decide)⟩

/-! ### Host byte-stream parser (`log0_host/src/parser.rs`)

```rust
pub struct Packet { pub string_loc: usize, pub type_loc: usize, pub buffer: Vec<u8> }

pub struct Parser {
    buf: VecDeque<u8>,
    data_size: Option<usize>,
    sym: Option<u32>,
    typ: Option<u32>,
}

pub fn push(&mut self, data: &[u8]) { self.buf.extend(data.iter()); }

fn try_leb128(&mut self) -> Option<u32> {
    let slices = self.buf.as_slices();
    let data_iter = slices.0.iter().chain(slices.1.iter());
    if let Ok((val, len_used)) = leb128::decode_u32(data_iter) {
        for _ in 0..len_used { self.buf.pop_front(); }
        Some(val)
    } else { None }
}

pub fn try_parse(&mut self) -> Option<Packet> {
    loop {
        match (self.data_size, self.sym, self.typ) {
            (None, _, _) => { self.data_size = Some(self.try_leb128()? as usize); }
            (Some(_), None, _) => { self.sym = Some(self.try_leb128()?); }
            (Some(_), Some(_), None) => { self.typ = Some(self.try_leb128()?); }
            (Some(data_size), Some(sym), Some(typ)) => {
                if self.buf.len() >= data_size {
                    let buf = self.buf.drain(..data_size).collect::<Vec<_>>();
                    self.data_size = None; self.sym = None; self.typ = None;
                    return Some(Packet { string_loc: sym as usize,
                                         type_loc: typ as usize, buffer: buf });
                } else { return None; }
            }
        }
    }
}
```

The queue is a `List Nat` (front = next byte out).  Each loop iteration fills
the first empty slot in the fixed order `data_size`, `sym`, `typ` and then
waits for the payload, so the loop is embedded as the linear composition of
three slot fills and the payload check; on an early `?`-return the progress
made so far (bytes popped, slots assigned) is kept, which `try_parse` models by
returning the updated parser alongside the optional packet. -/

structure Packet where
  string_loc : Nat
  type_loc : Nat
  buffer : List Nat
deriving DecidableEq

structure Parser where
  buf : List Nat
  data_size : Option Nat
  sym : Option Nat
  typ : Option Nat
deriving DecidableEq

def Parser.new : Parser := ⟨[], none, none, none⟩

def Parser.push (p : Parser) (data : List Nat) : Parser :=
  { p with buf := p.buf ++ data }

/-- `Parser::try_leb128` on the queue: decode from the front; on success pop
exactly the consumed bytes, on failure pop nothing. -/
def try_leb128 (buf : List Nat) : Option (Nat × List Nat) :=
  match decode_u32 buf with
  | some (val, len_used) => some (val, buf.drop len_used)
  | none => none

/-- One header slot of the `try_parse` loop: a filled slot passes through,
an empty one is decoded from the queue front. -/
def fillSlot (slot : Option Nat) (buf : List Nat) : Option (Nat × List Nat) :=
  match slot with
  | some v => some (v, buf)
  | none => try_leb128 buf

def try_parse (p : Parser) : Option Packet × Parser :=
  match fillSlot p.data_size p.buf with
  | none => (none, p)
  | some (ds, buf1) =>
    match fillSlot p.sym buf1 with
    | none => (none, { p with buf := buf1, data_size := some ds })
    | some (sy, buf2) =>
      match fillSlot p.typ buf2 with
      | none => (none, { p with buf := buf2, data_size := some ds, sym := some sy })
      | some (ty, buf3) =>
        if ds ≤ buf3.length then
          (some ⟨sy, ty, buf3.take ds⟩, ⟨buf3.drop ds, none, none, none⟩)
        else
          (none, { p with buf := buf3, data_size := some ds, sym := some sy,
                          typ := some ty })

/-! Parser lemmas. -/

theorem try_leb128_append {buf : List Nat} {v : Nat} {buf' b : List Nat}
    (h : try_leb128 buf = some (v, buf')) :
    try_leb128 (buf ++ b) = some (v, buf' ++ b) := by
  simp only [try_leb128] at h ⊢
  cases hd : decode_u32 buf with
  | none => rw [hd] at h; cases h
  | some r =>
    rw [hd] at h
    obtain ⟨val, len⟩ := r
    simp only [Option.some.injEq, Prod.mk.injEq] at h
    obtain ⟨rfl, rfl⟩ := h
    have hle : len ≤ buf.length := by
      have := (decodeAux_le hd).2
      omega
    rw [decode_u32_append b hd]
    show some (val, List.drop len (buf ++ b)) = some (val, List.drop len buf ++ b)
    rw [List.drop_append_of_le_length hle]

theorem fillSlot_append {slot : Option Nat} {buf : List Nat} {v : Nat} {buf' b : List Nat}
    (h : fillSlot slot buf = some (v, buf')) :
    fillSlot slot (buf ++ b) = some (v, buf' ++ b) := by
  cases slot with
  | some w =>
    simp only [fillSlot, Option.some.injEq, Prod.mk.injEq] at h ⊢
    exact ⟨h.1, by rw [h.2]⟩
  | none => exact try_leb128_append h

theorem fillSlot_length {slot : Option Nat} {buf : List Nat} {v : Nat} {buf' : List Nat}
    (h : fillSlot slot buf = some (v, buf')) :
    buf'.length ≤ buf.length ∧ (slot = none → buf'.length + 1 ≤ buf.length) := by
  cases slot with
  | some w =>
    simp only [fillSlot, Option.some.injEq, Prod.mk.injEq] at h
    rw [← h.2]
    exact ⟨le_refl _, by intro hc; cases hc⟩
  | none =>
    simp only [fillSlot, try_leb128] at h
    cases hd : decode_u32 buf with
    | none => rw [hd] at h; cases h
    | some r =>
      rw [hd] at h
      obtain ⟨val, len⟩ := r
      simp only [Option.some.injEq, Prod.mk.injEq] at h
      obtain ⟨-, rfl⟩ := h
      have h1 := decodeAux_le hd
      simp only [List.length_drop]
      omega

/-- If a `try_parse` step yields a packet, extra bytes appended to the queue
do not change the packet and simply ride along in the new state. -/
theorem try_parse_some_append {p : Parser} {pkt : Packet} {p' : Parser} (b : List Nat)
    (h : try_parse p = (some pkt, p')) :
    try_parse (p.push b) = (some pkt, p'.push b) := by
  cases h1 : fillSlot p.data_size p.buf with
  | none =>
    simp only [try_parse, h1] at h
    exact Option.noConfusion (congrArg Prod.fst h)
  | some r1 =>
    obtain ⟨ds, buf1⟩ := r1
    cases h2 : fillSlot p.sym buf1 with
    | none =>
      simp only [try_parse, h1, h2] at h
      exact Option.noConfusion (congrArg Prod.fst h)
    | some r2 =>
      obtain ⟨sy, buf2⟩ := r2
      cases h3 : fillSlot p.typ buf2 with
      | none =>
        simp only [try_parse, h1, h2, h3] at h
        exact Option.noConfusion (congrArg Prod.fst h)
      | some r3 =>
        obtain ⟨ty, buf3⟩ := r3
        by_cases hlen : ds ≤ buf3.length
        · simp only [try_parse, h1, h2, h3, if_pos hlen, Prod.mk.injEq,
            Option.some.injEq] at h
          obtain ⟨rfl, rfl⟩ := h
          have hb1 : fillSlot p.data_size (p.buf ++ b) = some (ds, buf1 ++ b) :=
            fillSlot_append h1
          have hb2 : fillSlot p.sym (buf1 ++ b) = some (sy, buf2 ++ b) :=
            fillSlot_append h2
          have hb3 : fillSlot p.typ (buf2 ++ b) = some (ty, buf3 ++ b) :=
            fillSlot_append h3
          simp only [try_parse, Parser.push, hb1, hb2, hb3]
          rw [if_pos (by simp only [List.length_append]; omega)]
          rw [List.take_append_of_le_length hlen, List.drop_append_of_le_length hlen]
        · simp only [try_parse, h1, h2, h3, if_neg hlen] at h
          exact Option.noConfusion (congrArg Prod.fst h)


/-- If a `try_parse` step yields no packet, the progress it left in the parser
is such that pushing more bytes and retrying gives the same result as
retrying on the progressed state: the parser is restartable byte-for-byte. -/
theorem fillSlot_some_eq (v : Nat) (buf : List Nat) :
    fillSlot (some v) buf = some (v, buf) := rfl

theorem try_parse_none_append {p p' : Parser} (b : List Nat)
    (h : try_parse p = (none, p')) :
    try_parse (p.push b) = try_parse (p'.push b) := by
  cases h1 : fillSlot p.data_size p.buf with
  | none =>
    simp only [try_parse, h1, Prod.mk.injEq, true_and] at h
    subst h
    rfl
  | some r1 =>
    obtain ⟨ds, buf1⟩ := r1
    have hb1 := fillSlot_append (b := b) h1
    cases h2 : fillSlot p.sym buf1 with
    | none =>
      simp only [try_parse, h1, h2, Prod.mk.injEq, true_and] at h
      subst h
      simp only [try_parse, Parser.push, hb1, fillSlot_some_eq]
    | some r2 =>
      obtain ⟨sy, buf2⟩ := r2
      have hb2 := fillSlot_append (b := b) h2
      cases h3 : fillSlot p.typ buf2 with
      | none =>
        simp only [try_parse, h1, h2, h3, Prod.mk.injEq, true_and] at h
        subst h
        simp only [try_parse, Parser.push, hb1, hb2, fillSlot_some_eq]
      | some r3 =>
        obtain ⟨ty, buf3⟩ := r3
        have hb3 := fillSlot_append (b := b) h3
        by_cases hlen : ds ≤ buf3.length
        · simp only [try_parse, h1, h2, h3, if_pos hlen] at h
          exact Option.noConfusion (congrArg Prod.fst h)
        · simp only [try_parse, h1, h2, h3, if_neg hlen, Prod.mk.injEq, true_and] at h
          subst h
          simp only [try_parse, Parser.push, hb1, hb2, hb3, fillSlot_some_eq]

def slotCount : Option Nat → Nat
  | none => 0
  | some _ => 1

/-- Termination measure for the drain loop: queue bytes count double, filled
header slots count once. -/
def pMeasure (p : Parser) : Nat :=
  2 * p.buf.length + slotCount p.data_size + slotCount p.sym + slotCount p.typ

theorem fillSlot_measure {slot : Option Nat} {buf : List Nat} {v : Nat} {buf' : List Nat}
    (h : fillSlot slot buf = some (v, buf')) :
    2 * buf'.length + 1 ≤ 2 * buf.length + slotCount slot := by
  have := fillSlot_length h
  cases slot with
  | some w => simp only [slotCount]; omega
  | none =>
    simp only [slotCount]
    have := this.2 rfl
    omega

theorem try_parse_some_measure {p : Parser} {pkt : Packet} {p' : Parser}
    (h : try_parse p = (some pkt, p')) : pMeasure p' < pMeasure p := by
  cases h1 : fillSlot p.data_size p.buf with
  | none =>
    simp only [try_parse, h1] at h
    exact Option.noConfusion (congrArg Prod.fst h)
  | some r1 =>
    obtain ⟨ds, buf1⟩ := r1
    cases h2 : fillSlot p.sym buf1 with
    | none =>
      simp only [try_parse, h1, h2] at h
      exact Option.noConfusion (congrArg Prod.fst h)
    | some r2 =>
      obtain ⟨sy, buf2⟩ := r2
      cases h3 : fillSlot p.typ buf2 with
      | none =>
        simp only [try_parse, h1, h2, h3] at h
        exact Option.noConfusion (congrArg Prod.fst h)
      | some r3 =>
        obtain ⟨ty, buf3⟩ := r3
        by_cases hlen : ds ≤ buf3.length
        · simp only [try_parse, h1, h2, h3, if_pos hlen, Prod.mk.injEq,
            Option.some.injEq] at h
          obtain ⟨-, rfl⟩ := h
          have m1 := fillSlot_measure h1
          have m2 := fillSlot_measure h2
          have m3 := fillSlot_measure h3
          have hz : slotCount (none : Option Nat) = 0 := rfl
          simp only [pMeasure, List.length_drop, hz]
          omega
        · simp only [try_parse, h1, h2, h3, if_neg hlen] at h
          exact Option.noConfusion (congrArg Prod.fst h)

/-- The reader's `while let Some(p) = parser.try_parse()` drain loop: run
`try_parse` repeatedly, collecting packets, until it returns no packet; the
final parser state (with whatever partial progress remains) is kept. -/
def drainAll (p : Parser) : List Packet × Parser :=
  match h : try_parse p with
  | (some pkt, p') => (pkt :: (drainAll p').1, (drainAll p').2)
  | (none, p') => ([], p')
termination_by pMeasure p
decreasing_by
  all_goals exact try_parse_some_measure h

theorem drainAll_none {p p' : Parser} (h : try_parse p = (none, p')) :
    drainAll p = ([], p') := by
  unfold drainAll
  split
  · next pkt p'' heq =>
    rw [h] at heq
    exact Option.noConfusion (congrArg Prod.fst heq)
  · next p'' heq =>
    rw [h] at heq
    simp only [Prod.mk.injEq, true_and] at heq
    rw [heq]

theorem drainAll_some {p : Parser} {pkt : Packet} {p' : Parser}
    (h : try_parse p = (some pkt, p')) :
    drainAll p = (pkt :: (drainAll p').1, (drainAll p').2) := by
  conv_lhs => rw [drainAll]
  split
  · next pkt' p'' heq =>
    rw [h] at heq
    simp only [Prod.mk.injEq, Option.some.injEq] at heq
    rw [heq.1, heq.2]
  · next p'' heq =>
    rw [h] at heq
    exact Option.noConfusion (congrArg Prod.fst heq)

theorem drainAll_congr {p₁ p₂ : Parser} (h : try_parse p₁ = try_parse p₂) :
    drainAll p₁ = drainAll p₂ := by
  rcases htp : try_parse p₁ with ⟨o, q⟩
  have htp2 : try_parse p₂ = (o, q) := by rw [← h, htp]
  cases o with
  | none => rw [drainAll_none htp, drainAll_none htp2]
  | some pkt => rw [drainAll_some htp, drainAll_some htp2]

theorem drainAll_push_aux (n : Nat) : ∀ (q : Parser) (b : List Nat), pMeasure q ≤ n →
    drainAll (q.push b) =
      ((drainAll q).1 ++ (drainAll ((drainAll q).2.push b)).1,
       (drainAll ((drainAll q).2.push b)).2) := by
  induction n using Nat.strong_induction_on with
  | _ n ih =>
    intro q b hq
    rcases htp : try_parse q with ⟨o, q'⟩
    cases o with
    | none =>
      rw [drainAll_none htp]
      simp only [List.nil_append]
      rw [Prod.mk.eta]
      exact drainAll_congr (try_parse_none_append b htp)
    | some pkt =>
      have hm := try_parse_some_measure htp
      have hb := try_parse_some_append b htp
      rw [drainAll_some htp, drainAll_some hb]
      have hrec := ih (pMeasure q') (by omega) q' b (le_refl _)
      rw [hrec]
      simp [List.cons_append]

/-- Restartability: pushing `b` into any parser state and draining produces
the packets the old state still held, followed by the packets of pushing `b`
into the drained state. -/
theorem drainAll_push (q : Parser) (b : List Nat) :
    drainAll (q.push b) =
      ((drainAll q).1 ++ (drainAll ((drainAll q).2.push b)).1,
       (drainAll ((drainAll q).2.push b)).2) :=
  drainAll_push_aux (pMeasure q) q b (le_refl _)

/-- One transfer of the reader loop: push the received bytes, then drain. -/
def feed (p : Parser) (bytes : List Nat) : List Packet × Parser :=
  drainAll (p.push bytes)

/-- The reader loop over a sequence of transfers: after each chunk is pushed
the parser is drained, and the packets of all iterations are concatenated. -/
def feedChunks (p : Parser) : List (List Nat) → List Packet × Parser
  | [] => ([], p)
  | c :: cs =>
    ((feed p c).1 ++ (feedChunks (feed p c).2 cs).1, (feedChunks (feed p c).2 cs).2)

theorem feedChunks_eq : ∀ (chunks : List (List Nat)) (p : Parser), chunks ≠ [] →
    feedChunks p chunks = drainAll (p.push chunks.flatten) := by
  intro chunks
  induction chunks with
  | nil => intro p h; exact absurd rfl h
  | cons c cs ih =>
    intro p _
    cases cs with
    | nil =>
      show ((feed p c).1 ++ ([] : List Packet), (feed p c).2) =
        drainAll (p.push (c :: []).flatten)
      simp [feed, List.flatten_cons]
    | cons c2 cs2 =>
      show ((feed p c).1 ++ (feedChunks (feed p c).2 (c2 :: cs2)).1,
          (feedChunks (feed p c).2 (c2 :: cs2)).2) =
        drainAll (p.push (c :: c2 :: cs2).flatten)
      rw [ih (feed p c).2 (by simp)]
      have hpp : p.push (c :: c2 :: cs2).flatten =
          (p.push c).push (c2 :: cs2).flatten := by
        simp [Parser.push, List.flatten_cons, List.append_assoc]
      rw [hpp, drainAll_push (p.push c) ((c2 :: cs2).flatten)]
      rfl

/-- Parsing one canonically-encoded frame from the front of the queue. -/
theorem try_parse_frame (s t : Nat) (d r : List Nat)
    (hs : s < 2 ^ 32) (ht : t < 2 ^ 32) (hd : d.length < 2 ^ 32) :
    try_parse ⟨frameBytes s t d ++ r, none, none, none⟩ =
      (some ⟨s, t, d⟩, ⟨r, none, none, none⟩) := by
  have hslot : ∀ (w : Nat) (rest : List Nat), w < 2 ^ 32 →
      fillSlot none (leb128_encode w ++ rest) = some (w, rest) := by
    intro w rest hw
    simp only [fillSlot, try_leb128]
    rw [decode_leb128_encode w hw rest]
    show some (w, List.drop (leb128_encode w).length (leb128_encode w ++ rest)) =
      some (w, rest)
    rw [List.drop_left]
  have hshape : frameBytes s t d ++ r =
      leb128_encode (d.length % 2 ^ 32) ++
        (leb128_encode (s % 2 ^ 32) ++ (leb128_encode (t % 2 ^ 32) ++ (d ++ r))) := by
    simp [frameBytes, List.append_assoc]
  have hmd : d.length % 2 ^ 32 = d.length := Nat.mod_eq_of_lt hd
  have hms : s % 2 ^ 32 = s := Nat.mod_eq_of_lt hs
  have hmt : t % 2 ^ 32 = t := Nat.mod_eq_of_lt ht
  rw [hshape, hmd, hms, hmt]
  have h1 := hslot d.length
    (leb128_encode s ++ (leb128_encode t ++ (d ++ r))) hd
  have h2 := hslot s (leb128_encode t ++ (d ++ r)) hs
  have h3 := hslot t (d ++ r) ht
  simp only [try_parse, h1, h2, h3]
  rw [if_pos (by simp)]
  rw [List.take_left, List.drop_left]

/-- Draining a queue holding exactly the concatenated wire bytes of a frame
sequence yields exactly those frames, leaving a pristine parser. -/
theorem drainAll_stream (frames : List (Nat × Nat × List Nat))
    (hb : ∀ f ∈ frames, f.1 < 2 ^ 32 ∧ f.2.1 < 2 ^ 32 ∧ f.2.2.length < 2 ^ 32) :
    drainAll ⟨(frames.map (fun f => frameBytes f.1 f.2.1 f.2.2)).flatten,
        none, none, none⟩ =
      (frames.map (fun f => (⟨f.1, f.2.1, f.2.2⟩ : Packet)), Parser.new) := by
  induction frames with
  | nil =>
    have hstep : try_parse ⟨[], none, none, none⟩ = (none, ⟨[], none, none, none⟩) := rfl
    simp only [List.map_nil, List.flatten_nil]
    rw [drainAll_none hstep]
    rfl
  | cons f fs ih =>
    obtain ⟨hf1, hf2, hf3⟩ := hb f (List.mem_cons_self f fs)
    have hstep := try_parse_frame f.1 f.2.1 f.2.2
      ((fs.map (fun f => frameBytes f.1 f.2.1 f.2.2)).flatten) hf1 hf2 hf3
    simp only [List.map_cons, List.flatten_cons]
    rw [drainAll_some hstep, ih (fun g hg => hb g (List.mem_cons_of_mem f hg))]

/-- C1.  Round-trip and chunking invariance: for every sequence of
`(fmt_key, type_key, payload)` triples the writer can accept (keys are `u32`
values, payload short enough for any admission), feeding the emitted wire
bytes to the parser — split into *any* sequence of chunks, each followed by a
full drain, exactly as the reader loop does — yields exactly the corresponding
sequence of packets (payload bytes, hence payload length, `fmt_key` as
`string_loc`, `type_key` as `type_loc`), and leaves the parser in its initial
state.  The result depends only on the concatenation of the chunks, not on the
split. -/
theorem frame_round_trip (frames : List (Nat × Nat × List Nat))
    (chunks : List (List Nat))
    (hstream : chunks.flatten = (frames.map (fun f => frameBytes f.1 f.2.1 f.2.2)).flatten)
    (hacc : ∀ f ∈ frames,
      f.1 < 2 ^ 32 ∧ f.2.1 < 2 ^ 32 ∧ f.2.2.length + 15 ≤ LOG0_CAPACITY - 1) :
    feedChunks Parser.new chunks =
      (frames.map (fun f => (⟨f.1, f.2.1, f.2.2⟩ : Packet)), Parser.new) := by
  have hb : ∀ f ∈ frames, f.1 < 2 ^ 32 ∧ f.2.1 < 2 ^ 32 ∧ f.2.2.length < 2 ^ 32 := by
    intro f hf
    obtain ⟨u, v, w⟩ := hacc f hf
    refine ⟨u, v, ?_⟩
    simp only [LOG0_CAPACITY] at w
    omega
  cases chunks with
  | nil =>
    have hempty : (frames.map (fun f => frameBytes f.1 f.2.1 f.2.2)).flatten = [] := by
      rw [← hstream]
      rfl
    cases frames with
    | nil => rfl
    | cons f fs =>
      exfalso
      have h3 := frameBytes_length_pos f.1 f.2.1 f.2.2
      simp only [List.map_cons, List.flatten_cons] at hempty
      have hlen := congrArg List.length hempty
      simp only [List.length_append, List.length_nil] at hlen
      omega
  | cons c cs =>
    rw [feedChunks_eq (c :: cs) Parser.new (by simp)]
    have hpush : Parser.new.push (c :: cs).flatten =
        ⟨(frames.map (fun f => frameBytes f.1 f.2.1 f.2.2)).flatten,
          none, none, none⟩ := by
      simp only [Parser.new, Parser.push, List.nil_append]
      rw [hstream]
    rw [hpush]
    exact drainAll_stream frames hb

/-- Witness for C1: the spec's scenario-2 frame
`(fmt_key = 0xCAFE, type_key = 0xDEAF_BEEF, payload = [1,2,3,4,5])`, its
14 wire bytes split into chunks of 6, 6 and 2 (scenario 3). -/
theorem frame_round_trip_witness :
    (([(frameBytes 51966 3736191727 [1, 2, 3, 4, 5]).take 6,
       ((frameBytes 51966 3736191727 [1, 2, 3, 4, 5]).drop 6).take 6,
       (frameBytes 51966 3736191727 [1, 2, 3, 4, 5]).drop 12] :
        List (List Nat)).flatten =
       (([(51966, 3736191727, [1, 2, 3, 4, 5])] : List (Nat × Nat × List Nat)).map
         (fun f => frameBytes f.1 f.2.1 f.2.2)).flatten ∧
     ∀ f ∈ ([(51966, 3736191727, [1, 2, 3, 4, 5])] : List (Nat × Nat × List Nat)),
       f.1 < 2 ^ 32 ∧ f.2.1 < 2 ^ 32 ∧ f.2.2.length + 15 ≤ LOG0_CAPACITY - 1) ∧
    feedChunks Parser.new
        [(frameBytes 51966 3736191727 [1, 2, 3, 4, 5]).take 6,
         ((frameBytes 51966 3736191727 [1, 2, 3, 4, 5]).drop 6).take 6,
         (frameBytes 51966 3736191727 [1, 2, 3, 4, 5]).drop 12] =
      (([(51966, 3736191727, [1, 2, 3, 4, 5])] : List (Nat × Nat × List Nat)).map
        (fun f => (⟨f.1, f.2.1, f.2.2⟩ : Packet)), Parser.new) :=
  ⟨⟨by decide, by decide⟩,
   frame_round_trip [(51966, 3736191727, [1, 2, 3, 4, 5])]
     [(frameBytes 51966 3736191727 [1, 2, 3, 4, 5]).take 6,
      ((frameBytes 51966 3736191727 [1, 2, 3, 4, 5]).drop 6).take 6,
      (frameBytes 51966 3736191727 [1, 2, 3, 4, 5]).drop 12]
     (by decide) (by decide)⟩

/-- C3 amended.  `decode_u32` contains no sixth-byte protocol check: it fails
exactly when the input ends in the middle of a number (every byte seen has the
continuation bit), and the parser treats that failure as "wait for more
bytes" — `try_parse` returns no packet and leaves the state unchanged — not as
fatal.  A number running past the fifth byte is consumed as a value once a
terminating byte appears. -/
theorem decode_u32_err_iff :
    (∀ bytes : List Nat, decode_u32 bytes = none ↔ ∀ b ∈ bytes, b &&& 128 ≠ 0) ∧
    ∀ p : Parser, p.data_size = none → decode_u32 p.buf = none →
      try_parse p = (none, p) := by
  refine ⟨fun bytes => decodeAux_none_iff bytes 0 0, ?_⟩
  intro p hds hdec
  simp only [try_parse, hds, fillSlot, try_leb128, hdec]

/-- Witness for C3 (amended): a parser holding one lone continuation byte
waits instead of failing. -/
theorem decode_u32_err_iff_witness :
    (Parser.data_size ⟨[0x80], none, none, none⟩ = none ∧
     decode_u32 (Parser.buf ⟨[0x80], none, none, none⟩) = none) ∧
    try_parse ⟨[0x80], none, none, none⟩ = (none, ⟨[0x80], none, none, none⟩) :=
  ⟨⟨by decide, by decide⟩,
   decode_u32_err_iff.2 ⟨[0x80], none, none, none⟩ (by decide) (by decide)⟩

/-! ### Host reader transfer (`log0_host/src/main.rs`)

```rust
fn bytes_to_read(host_idx: usize, target_idx: usize, buffer_size: usize) -> usize {
    target_idx.wrapping_sub(host_idx).wrapping_add(buffer_size) % buffer_size
}

// reader loop, transfer step:
let br = bytes_to_read(host as usize, target as usize, buf_size);
let mut read = &mut read_buff[0..br];
if host + br as u32 > buf_size as u32 {
    // cursor will overflow
    let pivot = host.wrapping_add(br as u32).wrapping_sub(buf_size as u32) as usize;
    core.read_8(buf_address + host, &mut read[0..pivot])?;
    core.read_8(buf_address, &mut read[pivot..br])?;
    core.write_word_32(cursor_address + 4, (br - pivot) as u32)?;
} else {
    core.read_8(buf_address + host, &mut read)?;
    core.write_word_32(cursor_address + 4, (host + br as u32) % buf_size as u32)?;
}
```

`bytes_to_read` runs in host `usize` (64-bit); the pivot arithmetic runs in
`u32`.  A transfer is modelled as the list of issued byte-reads, each a
`(ring offset, length)` pair in issue order, together with the value written
back to the consumer-cursor cell. -/

def bytes_to_read (host_idx target_idx buffer_size : Nat) : Nat :=
  ((target_idx + (2 ^ 64 - host_idx % 2 ^ 64)) % 2 ^ 64 + buffer_size) % 2 ^ 64 %
    buffer_size

def transfer (host br buf_size : Nat) : List (Nat × Nat) × Nat :=
  if host + br > buf_size then
    let pivot := ((host + br) % 2 ^ 32 + (2 ^ 32 - buf_size % 2 ^ 32)) % 2 ^ 32
    ([(host, pivot), (0, br - pivot)], br - pivot)
  else
    ([(host, br)], (host + br) % buf_size)

/-- Modelled from the spec (§4.2 Transfer): "If `H + n ≤ C`, issue one
byte-read of length `n` from `ring_base + H`.  Otherwise split into two
byte-reads: `[H, C)` then `[0, n − (C − H))`.  After both reads complete,
write `H' = (H + n) mod C` to the cursor cell." -/
def transfer_spec (host br buf_size : Nat) : List (Nat × Nat) × Nat :=
  if host + br ≤ buf_size then
    ([(host, br)], (host + br) % buf_size)
  else
    ([(host, buf_size - host), (0, br - (buf_size - host))], (host + br) % buf_size)

/-- C7 evidence.  At `H = 1020, T = 10, C = 1024` (so `n = 14`,
`H + n > C`), the code issues the reads `(1020, 10)` then `(0, 4)` — the first
runs 6 bytes past the end of the ring — and publishes `H' = 4`; the spec
requires `(1020, 4)` then `(0, 10)` and `H' = (1020 + 14) mod 1024 = 10`. -/
theorem transfer_wrap_bug :
    bytes_to_read 1020 10 1024 = 14 ∧
    transfer 1020 14 1024 = ([(1020, 10), (0, 4)], 4) ∧
    transfer_spec 1020 14 1024 = ([(1020, 4), (0, 10)], 10) ∧
    transfer 1020 14 1024 ≠ transfer_spec 1020 14 1024 := by
  refine ⟨by decide, by decide, by decide, by decide⟩

/-! ### Debug-info type catalogue and renderer (`elf_test/src/lib.rs`)

The DWARF traversal itself drives the `gimli` library; what the claims bear on
is (a) the classification decision `extract_type_of` makes once a structure's
children have been collected, and (b) `Type::write_internal`, the renderer.
Both are embedded over the crate's descriptor types:

```rust
pub struct Struct { named_children: HashMap<String, Type>, indexed_children: Vec<Type> }
pub struct Enum { variants: HashMap<String, Type>, discriminant_offset: usize }
pub struct Scalar { printer: TypePrinter }            // TypePrinter { range, printer: BaseType }
pub enum TypeKind { Struct(Struct), Enum(Enum), Scalar(Scalar), Pointer(Box<Type>),
                    PlainVariant, Unknown }
pub struct Type { offset: usize, kind: TypeKind, name: String,
                  namespace: Vec<String>, variant_value: usize }
```

Hash maps are modelled as association lists (iteration order becomes list
order).  `BaseType`'s `F32`/`F64` constructors are omitted: their rendering is
host floating-point `Display` formatting, outside the shallow embedding, and
no claim exercises them. -/

inductive BaseType where
  | Unsigned (size : Nat)
  | Signed (size : Nat)
  | Bool
  | Char
  | Zero (s : String)
  | Unimplemented
deriving DecidableEq

mutual
inductive TyKind where
  | Struct (named_children : List (String × Ty)) (indexed_children : List Ty)
  | Enum (variants : List (String × Ty)) (discriminant_offset : Nat)
  | Scalar (rangeStart rangeEnd : Nat) (printer : BaseType)
  | Pointer (t : Ty)
  | PlainVariant
  | Unknown

inductive Ty where
  | mk (offset : Nat) (kind : TyKind) (name : String) (namespaces : List String)
       (variant_value : Nat)
end

def Ty.variant_value : Ty → Nat
  | Ty.mk _ _ _ _ vv => vv

def Ty.kind : Ty → TyKind
  | Ty.mk _ k _ _ _ => k

/-- The classification `UnitInfo::extract_type_of` applies to a
`DW_TAG_structure_type` entry: a childless structure becomes `PlainVariant`
before any walk; otherwise, after the child walk has filled the three
collections, the if-chain runs `named_children` first, then
`indexed_children`, then `variants`, and a structure whose collections are all
empty yields no descriptor (`return None`). -/
def classifyStructure (type_name : Option String) (hasChildren : Bool)
    (named_children : List (String × Ty)) (indexed_children : List Ty)
    (variants : List (String × Ty)) (discriminant_offset : Nat)
    (current_namespace : List String) (offset : Nat) : Option Ty :=
  if hasChildren = false then
    some (Ty.mk offset TyKind.PlainVariant
      (type_name.getD "<unnamed type>") current_namespace 0)
  else if named_children.isEmpty = false then
    some (Ty.mk offset (TyKind.Struct named_children indexed_children)
      (type_name.getD "<unnamed type>") current_namespace 0)
  else if indexed_children.isEmpty = false then
    some (Ty.mk offset (TyKind.Struct named_children indexed_children)
      (type_name.getD "<unnamed type>") current_namespace 0)
  else if variants.isEmpty = false then
    some (Ty.mk offset (TyKind.Enum variants discriminant_offset)
      (type_name.getD "<unnamed type>") current_namespace 0)
  else none

/-! The renderer.  Output is modelled as the single string of everything the
call prints (the crate interleaves `print!` to stdout with writes to `w`; the
model concatenates all of it in program order).  `none` models a panic:
out-of-range slice index (`&buf[offset..]`, `buf[disc]`, `buf.get(range)
.unwrap()`), a failed size assertion, a non-`0`/`1` boolean byte, or an
unsupported scalar size. -/

def leNat : List Nat → Nat
  | [] => 0
  | b :: rest => b + 256 * leNat rest

/-- `iN::from_le_bytes` followed by decimal `Display`. -/
def leIntString (buf : List Nat) : String :=
  let v := leNat buf
  let m := 2 ^ (8 * buf.length)
  if v < m / 2 then toString v else toString ((v : Int) - (m : Int))

/-- `BaseType::write`: the size assertions followed by the per-kind
rendering. -/
def BaseType.write (bt : BaseType) (buf : List Nat) : Option String :=
  match bt with
  | BaseType.Unsigned size =>
    if size = buf.length then
      if size = 1 ∨ size = 2 ∨ size = 4 ∨ size = 8 ∨ size = 16 then
        some (toString (leNat buf))
      else none
    else none
  | BaseType.Signed size =>
    if size = buf.length then
      if size = 1 ∨ size = 2 ∨ size = 4 ∨ size = 8 ∨ size = 16 then
        some (leIntString buf)
      else none
    else none
  | BaseType.Bool =>
    if buf.length = 1 then
      match buf.headD 0 with
      | 0 => some "false"
      | 1 => some "true"
      | _ => none
    else none
  | BaseType.Char =>
    if buf.length = 1 then some (String.mk [Char.ofNat (buf.headD 0)]) else none
  | BaseType.Zero s => some s
  | BaseType.Unimplemented => some "Unimplemented type"

/-- `TypePrinter::write`: `buf.get(range).unwrap()` (panic when the range does
not fit) and then the base-type rendering on the sub-slice. -/
def typePrinterWrite (rangeStart rangeEnd : Nat) (printer : BaseType)
    (buf : List Nat) : Option String :=
  if rangeStart ≤ rangeEnd ∧ rangeEnd ≤ buf.length then
    printer.write ((buf.drop rangeStart).take (rangeEnd - rangeStart))
  else none

def pad (depth : Nat) : String := String.mk (List.replicate (depth * 4) ' ')

mutual
/-- `Type::write_internal`. -/
def render : Ty → Nat → List Nat → Option String
  | Ty.mk offset kind name _ _, depth, buf =>
    match kind with
    | TyKind.Struct named_children indexed_children =>
      if named_children.isEmpty = false then
        if offset ≤ buf.length then
          match renderNamed named_children (depth + 1) (buf.drop offset) with
          | some s =>
            some (pad depth ++ name ++ ": \x7b\n" ++ s ++ pad depth ++ "\x7d,\n")
          | none => none
        else none
      else if indexed_children.isEmpty = false then
        if offset ≤ buf.length then
          match renderIndexed indexed_children (depth + 1) (buf.drop offset) with
          | some s =>
            some (pad depth ++ name ++ ": (\n" ++ s ++ pad depth ++ "),\n")
          | none => none
        else none
      else some ""
    | TyKind.Enum variants discriminant_offset =>
      match buf.get? discriminant_offset with
      | none => none
      | some d =>
        match renderVariants variants d offset (depth + 1) buf with
        | some s => some (pad depth ++ name ++ "::" ++ s)
        | none => none
    | TyKind.Scalar rangeStart rangeEnd printer =>
      if offset ≤ buf.length then
        match typePrinterWrite rangeStart rangeEnd printer (buf.drop offset) with
        | some v => some (pad depth ++ name ++ ": " ++ v ++ ",\n")
        | none => none
      else none
    | TyKind.PlainVariant => some (pad depth ++ name ++ ": " ++ ",\n")
    | TyKind.Pointer t =>
      match render t depth buf with
      | some s => some ("*" ++ s)
      | none => none
    | TyKind.Unknown => some ""

def renderNamed : List (String × Ty) → Nat → List Nat → Option String
  | [], _, _ => some ""
  | (_, t) :: rest, depth, buf =>
    match render t depth buf with
    | none => none
    | some s =>
      match renderNamed rest depth buf with
      | none => none
      | some s2 => some (s ++ s2)

def renderIndexed : List Ty → Nat → List Nat → Option String
  | [], _, _ => some ""
  | t :: rest, depth, buf =>
    match render t depth buf with
    | none => none
    | some s =>
      match renderIndexed rest depth buf with
      | none => none
      | some s2 => some (s ++ s2)

/-- The variant loop of the `Enum` branch: every variant whose
`variant_value` equals the discriminant byte is emitted; a `PlainVariant`
prints its bare name, any other kind prints `name { … }` recursing on
`buf[enclosing_offset..]`. -/
def renderVariants : List (String × Ty) → Nat → Nat → Nat → List Nat → Option String
  | [], _, _, _, _ => some ""
  | (vn, v) :: rest, d, offset, depth, buf =>
    if v.variant_value == d then
      match v.kind with
      | TyKind.PlainVariant =>
        match renderVariants rest d offset depth buf with
        | none => none
        | some s2 => some (vn ++ "\n" ++ s2)
      | _ =>
        if offset ≤ buf.length then
          match render v depth (buf.drop offset) with
          | none => none
          | some s =>
            match renderVariants rest d offset depth buf with
            | none => none
            | some s2 => some (vn ++ " \x7b\n" ++ s ++ "\x7d\n" ++ s2)
        else none
    else
      match renderVariants rest d offset depth buf with
      | none => none
      | some s2 => some s2
end

/-- C8 counterexample.  A structure carrying *both* a named member and a
variant is classified as a named `Struct` (aggregate), not as a tagged union:
`named_children` is tested before `variants`, so variants do not win. -/
theorem classify_named_beats_variants :
    classifyStructure (some "S") true
        [("x", Ty.mk 1 (TyKind.Scalar 0 1 (BaseType.Unsigned 1)) "u8" [] 0)] []
        [("A", Ty.mk 0 TyKind.PlainVariant "A" [] 0)] 0 [] 0 =
      some (Ty.mk 0
        (TyKind.Struct [("x", Ty.mk 1 (TyKind.Scalar 0 1 (BaseType.Unsigned 1)) "u8" [] 0)] [])
        "S" [] 0) ∧
    ∀ (vs : List (String × Ty)) (d : Nat),
      TyKind.Struct [("x", Ty.mk 1 (TyKind.Scalar 0 1 (BaseType.Unsigned 1)) "u8" [] 0)]
        ([] : List Ty) ≠ TyKind.Enum vs d :=
  ⟨rfl, fun _ _ h => TyKind.noConfusion h⟩

/-- C8 amended.  The materialisation order for a DWARF structure is: a
*childless* structure becomes `PlainVariant` before any walk; otherwise the
if-chain tests `named_children` first (→ `Struct`), then `indexed_children`
(→ `Struct`, same constructor carrying both collections; tuple-like versus
named rendering is decided later by the renderer), then `variants`
(→ `Enum`); a structure with children but all three collections empty yields
no descriptor at all (it is discarded), not a `PlainVariant`. -/
theorem classifyStructure_order (tn : Option String) (named : List (String × Ty))
    (indexed : List Ty) (variants : List (String × Ty)) (d : Nat)
    (ns : List String) (off : Nat) :
    (classifyStructure tn false named indexed variants d ns off =
      some (Ty.mk off TyKind.PlainVariant (tn.getD "<unnamed type>") ns 0)) ∧
    (named ≠ [] →
      classifyStructure tn true named indexed variants d ns off =
        some (Ty.mk off (TyKind.Struct named indexed)
          (tn.getD "<unnamed type>") ns 0)) ∧
    (named = [] → indexed ≠ [] →
      classifyStructure tn true named indexed variants d ns off =
        some (Ty.mk off (TyKind.Struct named indexed)
          (tn.getD "<unnamed type>") ns 0)) ∧
    (named = [] → indexed = [] → variants ≠ [] →
      classifyStructure tn true named indexed variants d ns off =
        some (Ty.mk off (TyKind.Enum variants d)
          (tn.getD "<unnamed type>") ns 0)) ∧
    (named = [] → indexed = [] → variants = [] →
      classifyStructure tn true named indexed variants d ns off = none) := by
  refine ⟨rfl, ?_, ?_, ?_, ?_⟩
  · intro h1
    simp [classifyStructure, List.isEmpty_eq_false.mpr h1]
  · intro h1 h2
    subst h1
    simp [classifyStructure, List.isEmpty_eq_false.mpr h2]
  · intro h1 h2 h3
    subst h1; subst h2
    simp [classifyStructure, List.isEmpty_eq_false.mpr h3]
  · intro h1 h2 h3
    subst h1; subst h2; subst h3
    simp [classifyStructure]

/-- Witness for C8 (amended), each branch at a concrete structure. -/
theorem classifyStructure_order_witness :
    (classifyStructure (some "S") false
        [("x", Ty.mk 1 (TyKind.Scalar 0 1 (BaseType.Unsigned 1)) "u8" [] 0)] [] [] 0 [] 0 =
      some (Ty.mk 0 TyKind.PlainVariant "S" [] 0)) ∧
    (classifyStructure (some "S") true
        [("x", Ty.mk 1 (TyKind.Scalar 0 1 (BaseType.Unsigned 1)) "u8" [] 0)] [] [] 0 [] 0 =
      some (Ty.mk 0
        (TyKind.Struct [("x", Ty.mk 1 (TyKind.Scalar 0 1 (BaseType.Unsigned 1)) "u8" [] 0)] [])
        "S" [] 0)) ∧
    (classifyStructure (some "S") true []
        [Ty.mk 0 (TyKind.Scalar 0 1 (BaseType.Unsigned 1)) "0" [] 0] [] 0 [] 0 =
      some (Ty.mk 0
        (TyKind.Struct [] [Ty.mk 0 (TyKind.Scalar 0 1 (BaseType.Unsigned 1)) "0" [] 0])
        "S" [] 0)) ∧
    (classifyStructure (some "S") true [] []
        [("A", Ty.mk 0 TyKind.PlainVariant "A" [] 0)] 3 [] 0 =
      some (Ty.mk 0 (TyKind.Enum [("A", Ty.mk 0 TyKind.PlainVariant "A" [] 0)] 3)
        "S" [] 0)) ∧
    (classifyStructure (some "S") true [] [] [] 0 [] 0 = none) :=
  ⟨(classifyStructure_order (some "S")
      [("x", Ty.mk 1 (TyKind.Scalar 0 1 (BaseType.Unsigned 1)) "u8" [] 0)] [] [] 0 [] 0).1,
   (classifyStructure_order (some "S")
      [("x", Ty.mk 1 (TyKind.Scalar 0 1 (BaseType.Unsigned 1)) "u8" [] 0)] [] [] 0 [] 0).2.1
     (by simp),
   (classifyStructure_order (some "S") []
      [Ty.mk 0 (TyKind.Scalar 0 1 (BaseType.Unsigned 1)) "0" [] 0] [] 0 [] 0).2.2.1
     rfl (by simp),
   (classifyStructure_order (some "S") [] []
      [("A", Ty.mk 0 TyKind.PlainVariant "A" [] 0)] 3 [] 0).2.2.2.1
     rfl rfl (by simp),
   (classifyStructure_order (some "S") [] [] [] 0 [] 0).2.2.2.2 rfl rfl rfl⟩

/-- C9 counterexample.  Rendering a tagged union whose discriminant byte (`1`)
matches no variant in the map (the sole variant `A` has value `0`) does *not*
fail: the renderer prints only the `E::` prefix and returns success. -/
theorem enum_missing_discriminant_renders :
    render (Ty.mk 0 (TyKind.Enum [("A", Ty.mk 0 TyKind.PlainVariant "A" [] 0)] 0) "E" [] 0)
        0 [1] = some "E::" ∧
    (some "E::" : Option String) ≠ none := by
  constructor
  · decide
  · decide

theorem renderVariants_no_match (vs : List (String × Ty)) (d off depth : Nat)
    (buf : List Nat) (h : ∀ v ∈ vs, (v.2).variant_value ≠ d) :
    renderVariants vs d off depth buf = some "" := by
  induction vs with
  | nil => rfl
  | cons v rest ih =>
    obtain ⟨vn, vt⟩ := v
    have hne : vt.variant_value ≠ d := h (vn, vt) (List.mem_cons_self _ _)
    have hbeq : (vt.variant_value == d) = false := by
      simpa using hne
    rw [renderVariants, hbeq, ih (fun w hw => h w (List.mem_cons_of_mem _ hw))]
    simp

/-- C9 amended.  The `Enum` branch of the renderer reads the discriminant byte
at `discriminant_offset` — an offset outside the buffer is fatal (panic) — and
walks the variants map: a matching `PlainVariant` emits its bare name, any
other matching variant emits `name { … }` with its rendering; but a
discriminant value present in *no* variant is not fatal: the call emits only
the `Name::` prefix and succeeds. -/
theorem enum_render_behaviour (name : String) (ns : List String) (off vv disc : Nat)
    (vs : List (String × Ty)) (buf : List Nat) (depth : Nat) :
    (buf.get? disc = none →
      render (Ty.mk off (TyKind.Enum vs disc) name ns vv) depth buf = none) ∧
    (∀ d, buf.get? disc = some d → (∀ v ∈ vs, (v.2).variant_value ≠ d) →
      render (Ty.mk off (TyKind.Enum vs disc) name ns vv) depth buf =
        some (pad depth ++ name ++ "::")) ∧
    (∀ d vn, buf.get? disc = some d →
      render (Ty.mk off (TyKind.Enum [(vn, Ty.mk 0 TyKind.PlainVariant vn [] d)] disc)
          name ns vv) depth buf =
        some (pad depth ++ name ++ "::" ++ (vn ++ "\n"))) := by
  refine ⟨?_, ?_, ?_⟩
  · intro h
    simp only [render, h]
  · intro d hd hno
    simp only [render, hd, renderVariants_no_match vs d off (depth + 1) buf hno,
      String.append_empty]
  · intro d vn hd
    have hone : renderVariants [(vn, Ty.mk 0 TyKind.PlainVariant vn [] d)] d off
        (depth + 1) buf = some (vn ++ "\n") := by
      rw [renderVariants]
      simp only [Ty.variant_value, beq_self_eq_true, if_pos rfl, Ty.kind]
      rw [show renderVariants [] d off (depth + 1) buf = some "" from rfl]
      simp
    simp only [render, hd, hone]

/-- Witness for C9 (amended) at concrete tagged unions. -/
theorem enum_render_behaviour_witness :
    (render (Ty.mk 0 (TyKind.Enum [("A", Ty.mk 0 TyKind.PlainVariant "A" [] 0)] 2)
        "E" [] 0) 0 [1] = none) ∧
    (render (Ty.mk 0 (TyKind.Enum [("A", Ty.mk 0 TyKind.PlainVariant "A" [] 0)] 0)
        "E" [] 0) 0 [1] = some (pad 0 ++ "E" ++ "::")) ∧
    (render (Ty.mk 0 (TyKind.Enum [("B", Ty.mk 0 TyKind.PlainVariant "B" [] 1)] 0)
        "E" [] 0) 0 [1] = some (pad 0 ++ "E" ++ "::" ++ ("B" ++ "\n"))) :=
  ⟨(enum_render_behaviour "E" [] 0 0 2
      [("A", Ty.mk 0 TyKind.PlainVariant "A" [] 0)] [1] 0).1 (by decide),
   (enum_render_behaviour "E" [] 0 0 0
      [("A", Ty.mk 0 TyKind.PlainVariant "A" [] 0)] [1] 0).2.1 1 (by decide) (by decide),
   (enum_render_behaviour "E" [] 0 0 0
      [("A", Ty.mk 0 TyKind.PlainVariant "A" [] 0)] [1] 0).2.2 1 "B" (by decide)⟩

end Fasthosting
